import Mathlib

/-
Verification of the mdefine-to-S-Lang converter (parse_mdefine.py).

The program is embedded shallowly: expressions are lists of characters,
Python string operations become explicit list functions, the mutable
additive-function registry becomes explicit state passing, and any
operation that can raise a Python exception (IndexError on the bracket
scan, AttributeError when re.search returns None, IndexError on a
missing list element) returns Option, with none modelling the raised
exception.  The iterative rewriting loops of the source shrink their
working buffer by at least one character per iteration, so they are
given fuel equal to the buffer length plus one, which can never run out.
-/

/-- Convert a string literal to the character-list representation used
throughout this development. -/
def S (s : String) : List Char := s.toList

/-- The character class of the regex word escape for the ASCII inputs the
program handles: letters, digits and underscore. -/
def isWordChar (c : Char) : Bool := c.isAlphanum || c = '_'

/-- Python whitespace as used by str.split() and str.strip(). -/
def isPySpace (c : Char) : Bool :=
  c = ' ' || c = '\t' || c = '\n' || c = '\r' || c = '\x0b' || c = '\x0c'

/-- Python s.split(sep) for a one-character separator: every occurrence of
the separator starts a new (possibly empty) piece; the result is never
empty. -/
def splitOnChar (sep : Char) : List Char → List (List Char)
  | [] => [[]]
  | c :: r =>
    match splitOnChar sep r with
    | [] => [[]]
    | p :: ps => if c = sep then [] :: p :: ps else (c :: p) :: ps

/-- Python re.split of the non-word character class: every non-word
character is a one-character separator. -/
def splitNonWord : List Char → List (List Char)
  | [] => [[]]
  | c :: r =>
    match splitNonWord r with
    | [] => [[]]
    | p :: ps => if isWordChar c then (c :: p) :: ps else [] :: p :: ps

/-- Python sep.join(pieces). -/
def joinWith (sep : List Char) : List (List Char) → List Char
  | [] => []
  | [x] => x
  | x :: y :: ys => x ++ sep ++ joinWith sep (y :: ys)

/-- Python s.strip(). -/
def pyStrip (l : List Char) : List Char :=
  ((l.dropWhile isPySpace).reverse.dropWhile isPySpace).reverse

/-- Python s.split() with no argument: split on whitespace runs, dropping
empty pieces. -/
def pySplitWS (l : List Char) : List (List Char) :=
  (splitOnP l).filter (fun w => decide (w ≠ []))
where
  splitOnP : List Char → List (List Char)
    | [] => [[]]
    | c :: r =>
      match splitOnP r with
      | [] => [[]]
      | p :: ps => if isPySpace c then [] :: p :: ps else (c :: p) :: ps

/-- Remove all whitespace; used to state equality of emitted text up to
whitespace. -/
def stripWS (l : List Char) : List Char := l.filter (fun c => !(isPySpace c))

/-- Does the list start with the given pattern? -/
def startsWithChars : List Char → List Char → Bool
  | [], _ => true
  | _ :: _, [] => false
  | p :: ps, c :: cs => p = c && startsWithChars ps cs

/-- Python re.search of a word-boundary-delimited name (the source builds
the pattern as a backslash-b, the identifier, then backslash-b): the start
index of the leftmost occurrence of name that is not adjacent to word
characters on either side.  All names the program searches for are
nonempty runs of word characters, for which the boundary condition is
exactly the one tested here. -/
def findWordAux (name : List Char) (prev : Option Char) : List Char → Nat → Option Nat
  | [], _ => none
  | c :: rest, i =>
    let beforeOK : Bool := match prev with
      | none => true
      | some p => !isWordChar p
    let afterOK : Bool := match (c :: rest).drop name.length with
      | [] => true
      | d :: _ => !isWordChar d
    if beforeOK && startsWithChars name (c :: rest) && afterOK then some i
    else findWordAux name (some c) rest (i + 1)

def findWord (name s : List Char) : Option Nat := findWordAux name none s 0

/-- Python re.search of a literal opening parenthesis: index of the first
one. -/
def findOpenParen (s : List Char) : Option Nat := s.findIdx? (fun c => c = '(')

/-- One step of the bracket-depth counter of the source (lines 80-88 and
132-139): increment on an opening parenthesis, decrement on a closing
one. The callers always run it at level at least 1, so the natural-number
subtraction agrees with the Python integer. -/
def stepLvl (c : Char) (lvl : Nat) : Nat :=
  if c = '(' then lvl + 1 else if c = ')' then lvl - 1 else lvl

/-- The bracket-matching scan of the source: starting at depth lvl just
past an opening parenthesis, consume characters until the depth reaches
zero and return how many characters were consumed (the Python variable i
on loop exit).  Reaching the end of the string first is the IndexError of
the source, modelled as none. -/
def bracketScan : List Char → Nat → Option Nat
  | [], _ => none
  | c :: r, lvl =>
    if stepLvl c lvl = 0 then some 1
    else Option.map (fun n => n + 1) (bracketScan r (stepLvl c lvl))

/-- The min/max rewriting loop of interpret_line (source lines 66-93) for
one function name: repeatedly find a word-boundary occurrence of the
name, move the text before it plus the name and an opening array bracket
to the output, skip to just past the next opening parenthesis anywhere in
the remainder, find the matching closing parenthesis by the bracket scan,
and splice a closing array bracket in front of it.  none models the
AttributeError (no parenthesis at all) or IndexError (unbalanced
brackets) the Python raises. -/
def multiArgLoop (name : List Char) : Nat → List Char → List Char → Option (List Char)
  | 0, _, _ => none
  | fuel + 1, newExpr, funcExpr =>
    match findWord name funcExpr with
    | none => some (newExpr ++ funcExpr)
    | some start =>
      let newExpr2 := newExpr ++ funcExpr.take start ++ name ++ S "(["
      let rest1 := funcExpr.drop (start + name.length)
      match findOpenParen rest1 with
      | none => none
      | some p =>
        let rest2 := rest1.drop (p + 1)
        match bracketScan rest2 1 with
        | none => none
        | some i =>
          multiArgLoop name fuel newExpr2 (rest2.take (i - 1) ++ S "])" ++ rest2.drop i)

/-- The full multi-argument rewriting pass (source lines 66-93): the loop
above run for min and then for max, each starting from an empty output
buffer. -/
def multiArgPass (e : List Char) : Option (List Char) :=
  match multiArgLoop (S "min") (e.length + 1) [] e with
  | none => none
  | some e1 => multiArgLoop (S "max") (e1.length + 1) [] e1

/-- The subfunction wrapping loop of interpret_line (source lines
118-146) for one name: like the multi-argument loop, but the call is
rewritten to the indirect-evaluation form, with the extra normalisation
argument 1 when the name is in the additive-function registry. -/
def subFuncLoop (name : List Char) (additive : Bool) :
    Nat → List Char → List Char → Option (List Char)
  | 0, _, _ => none
  | fuel + 1, newExpr, funcExpr =>
    match findWord name funcExpr with
    | none => some (newExpr ++ funcExpr)
    | some start =>
      let newExpr2 := newExpr ++ funcExpr.take start ++ S "eval_fun2(&" ++ name ++
        S ",lo,hi, [" ++ (if additive then S "1, " else [])
      let rest1 := funcExpr.drop (start + name.length)
      match findOpenParen rest1 with
      | none => none
      | some p =>
        let rest2 := rest1.drop (p + 1)
        match bracketScan rest2 1 with
        | none => none
        | some i =>
          subFuncLoop name additive fuel newExpr2
            (rest2.take (i - 1) ++ S "])" ++ rest2.drop i)

/-- List of mathematical (not fitting) functions available to mdefine,
transcribed verbatim from the source, including the entry " max" whose
leading space the source contains. -/
def special_functions : List String :=
  ["exp", "sin", "cos", "tan", "sinh", "cosh", "tanh", "sqrt", "abs",
   "asin", "acos", "atan", "asinh", "acosh", "atanh", "sind", "cosd", "tand",
   "heaviside", "boxcar", "sign", "mean", "atan2", "erf", "erfc", "log", "log10",
   "gamma", "min", " max", "smin", "smax"]

def special_functionsL : List (List Char) := special_functions.map String.toList

/-- List of intrinsic XSPEC additive fit functions, transcribed verbatim
from the source; it seeds the additive-function registry. -/
def additive_functions : List String :=
  ["agauss", "c6vmekl", "eqpair", "nei", "rnei", "vraymond", "agnsed", "carbatm", "eqtherm",
   "nlapec", "sedov", "vrnei", "agnslim", "cemekl", "equil", "npshock", "sirf", "vsedov",
   "apec", "cevmkl", "expdec", "nsa", "slimbh", "vtapec", "bapec", "cflow", "ezdiskbb",
   "nsagrav", "smaug", "vvapec", "bbody", "compLS", "gadem", "nsatmos", "snapec", "vvgnei",
   "bbodyrad", "compPS", "gaussian", "nsmax", "srcut", "vvnei", "bexrav", "compST", "gnei",
   "nsmaxg", "sresc", "vvnpshock", "bexriv", "compTT", "grad", "nsx", "ssa", "vvpshock",
   "bkn2pow", "compbb", "grbcomp", "nteea", "step", "vvrnei", "bknpower", "compmag", "grbjet",
   "nthComp", "tapec", "vvsedov", "bmc", "comptb", "grbm", "optxagn", "vapec", "vvtapec",
   "bremss", "compth", "hatm", "optxagnf", "vbremss", "vvwdem", "brnei", "cph", "jet",
   "pegpwrlw", "vcph", "vwdem", "btapec", "cplinear", "kerrbb", "pexmon", "vequil", "wdem",
   "bvapec", "cutoffpl", "kerrd", "pexrav", "vgadem", "zagauss", "bvrnei", "disk", "kerrdisk",
   "pexriv", "vgnei", "zbbody", "bvtapec", "diskbb", "kyrline", "plcabs", "vmcflow",
   "zbknpower", "bvvapec", "diskir", "laor", "posm", "vmeka", "zbremss", "bvvrnei", "diskline",
   "laor2", "powerlaw", "vmekal", "zcutoffpl", "bvvtapec", "diskm", "logpar", "pshock", "vnei",
   "zgauss", "bwcycl", "disko", "lorentz", "qsosed", "vnpshock", "zkerrbb", "c6mekl",
   "diskpbb", "meka", "raymond", "voigt", "zlogpar", "c6pmekl", "diskpn", "mekal", "redge",
   "vpshock", "zpowerlw", "c6pvmkl", "eplogpar", "mkcflow", "refsch"]

/-- The initial state of the additive-function registry, before any line
has been processed. -/
def initial_additive : List (List Char) := additive_functions.map String.toList

/-- Python string lexicographic comparison, used to model the sorted
order in which numpy.unique returns the distinct subfunction names. -/
def lexLt : List Char → List Char → Bool
  | [], [] => false
  | [], _ :: _ => true
  | _ :: _, [] => false
  | a :: as, b :: bs => if a < b then true else if b < a then false else lexLt as bs

def insertLex (x : List Char) : List (List Char) → List (List Char)
  | [] => [x]
  | y :: ys => if lexLt x y then x :: y :: ys else y :: insertLex x ys

def sortLex : List (List Char) → List (List Char)
  | [] => []
  | x :: xs => insertLex x (sortLex xs)

/-- Keep the first occurrence of each element, in order (seen is the
accumulator of elements already emitted). -/
def uniqueAux (seen : List (List Char)) : List (List Char) → List (List Char)
  | [] => []
  | x :: rest =>
    if x ∈ seen then uniqueAux seen rest else x :: uniqueAux (seen ++ [x]) rest

/-- Keep the first occurrence of each element, in order.  Together with
sortLex this models numpy.unique; on its own it models the composite
numpy.unique(..., return_index=True) followed by reordering with
argsort of the first-occurrence indices (source lines 105-107), which
returns the distinct elements ordered by first occurrence. -/
def uniqueInOrder (l : List (List Char)) : List (List Char) := uniqueAux [] l

/-- numpy.unique itself: distinct elements in sorted order (line 112 of
the source iterates the wrapper over this). -/
def sortedUnique (l : List (List Char)) : List (List Char) := sortLex (uniqueInOrder l)

/-- Source lines 99-100: the names deemed to be existing functions - for
each piece of the expression split at opening parentheses, the trailing
run of word characters, dropping empties. -/
def subFuncNames (e : List Char) : List (List Char) :=
  ((splitOnChar '(' e).map (fun seg => (splitNonWord seg).getLastD [])).filter
    (fun w => decide (w ≠ []))

/-- Source lines 103-107: parameter extraction - word tokens of the
expression, dropping tokens whose first character is a digit, tokens
equal to the energy symbols e and E and tokens recognised as function
names, deduplicated preserving first appearance. -/
def extractPars (e : List Char) : List (List Char) :=
  let names := subFuncNames e
  let words0 := (splitNonWord e).filter (fun w => decide (w ≠ []))
  let words1 := words0.filter (fun w => !(w.headD ' ').isDigit)
  uniqueInOrder (words1.filter
    (fun w => !(names.contains w) && !(w == S "e") && !(w == S "E")))

/-- Source lines 112-146: run the subfunction wrapping loop for every
(sorted, distinct) name that is not a special mathematical function,
consulting the registry for the normalisation argument. -/
def subFuncAll : List (List Char) → List (List Char) → List Char → Option (List Char)
  | [], _, e => some e
  | name :: rest, reg, e =>
    if name ∈ special_functionsL then subFuncAll rest reg e
    else
      match subFuncLoop name (reg.contains name) (e.length + 1) [] e with
      | none => none
      | some e2 => subFuncAll rest reg e2

/-- Source line 153: the replacement text for the energy symbol. -/
def energyRepl : List Char := S "(6.19920995*(lo+hi)/lo/hi)"

/-- Source line 153: replace every word-boundary-delimited occurrence of
e or E by the central-energy formula, scanning left to right over the
original text. -/
def energySubAux (prev : Option Char) : List Char → List Char
  | [] => []
  | c :: rest =>
    let beforeOK : Bool := match prev with
      | none => true
      | some p => !isWordChar p
    let afterOK : Bool := match rest with
      | [] => true
      | d :: _ => !isWordChar d
    if (c = 'e' || c = 'E') && beforeOK && afterOK then
      energyRepl ++ energySubAux (some c) rest
    else c :: energySubAux (some c) rest

def energySubst (e : List Char) : List Char := energySubAux none e

/-- Source lines 166-168: cosmetic line wrapping of a long expression -
every plus and star becomes an operator followed by a newline and
indentation. -/
def lineWrap (e : List Char) : List Char :=
  joinWith (S " *\n        ")
    (splitOnChar '*' (joinWith (S " +\n        ") (splitOnChar '+' e)))

/-- The data interpret_line contributes to the emitted output that the
claims are about: the function name, the ordered parameter list and the
expression of the emitted return statement. -/
structure InterpResult where
  funcName : List Char
  pars : List (List Char)
  retExpr : List Char
deriving DecidableEq, Repr

/-- Source line 44: the raw expression text of the line - everything
before the first colon, split on single spaces with the first two fields
(the directive and the name) removed, joined by single spaces. -/
def funcExprOf (line : List Char) : List Char :=
  joinWith (S " ") ((splitOnChar ' ' ((splitOnChar ':' line).headD [])).drop 2)

/-- Source lines 46-49: the model type - add when the line has no colon,
otherwise the stripped text after the last colon. -/
def mtypeOf (line : List Char) : List Char :=
  if (splitOnChar ':' line).length = 1 then S "add"
  else pyStrip ((splitOnChar ':' line).getLastD [])

/-- The body of interpret_line after the line has been cut into name,
expression and type (source lines 51-187): register the name if the type
is add, run the multi-argument pass, collect subfunction names and
parameters, wrap subfunction calls, substitute the energy symbol, and
for additive models prepend norm to the parameters and multiply the
expression by norm; finally apply the cosmetic line wrapping.  The lines
57-61 and 95-96 of the source call re.sub but discard its result, so
they change nothing and have no counterpart here. -/
def interpretCore (func_name func_expr0 mtype : List Char) (reg : List (List Char)) :
    Option (InterpResult × List (List Char)) :=
  let reg2 := if mtype == S "add" then reg ++ [func_name] else reg
  match multiArgPass func_expr0 with
  | none => none
  | some e1 =>
    let pars0 := extractPars e1
    match subFuncAll (sortedUnique (subFuncNames e1)) reg2 e1 with
    | none => none
    | some e2 =>
      let e3 := energySubst e2
      let pars := if mtype == S "add" then S "norm" :: pars0 else pars0
      let e4 := if mtype == S "add" then S "( " ++ e3 ++ S " )*norm" else e3
      let e5 := if 72 < e4.length then lineWrap e4 else e4
      some (⟨func_name, pars, e5⟩, reg2)

/-- interpret_line (source lines 34-187): cut the line into components
and run the core; a line with fewer than two space-separated fields
raises IndexError in the source, modelled as none. -/
def interpret_line (line : List Char) (reg : List (List Char)) :
    Option (InterpResult × List (List Char)) :=
  match (splitOnChar ' ' line)[1]? with
  | none => none
  | some func_name => interpretCore func_name (funcExprOf line) (mtypeOf line) reg

/-- The pipeline of interpretCore with every model-type test resolved to
its false branch: the registry is returned unchanged, norm is neither
prepended to the parameters nor multiplied into the expression.  Used to
state that every non-add type tag is treated this way. -/
def interpretNonAdd (func_name func_expr0 : List Char) (reg : List (List Char)) :
    Option (InterpResult × List (List Char)) :=
  match multiArgPass func_expr0 with
  | none => none
  | some e1 =>
    let pars0 := extractPars e1
    match subFuncAll (sortedUnique (subFuncNames e1)) reg e1 with
    | none => none
    | some e2 =>
      let e3 := energySubst e2
      let e5 := if 72 < e3.length then lineWrap e3 else e3
      some (⟨func_name, pars0, e5⟩, reg)

/-- Source line 202: the diagnostic printed for an unrecognised line. -/
def failMessage (line : List Char) : List Char :=
  S "Failed to parse line: \"" ++ line ++ S "\""

/-- Source lines 194-202: dispatch of one input line - blank lines and
comment lines pass, mdefine lines go to interpret_line (whose exception
propagates as none), anything else produces a printed diagnostic.  The
second component collects the diagnostics printed while handling the
line. -/
def processLine (reg : List (List Char)) (line : List Char) :
    Option (List (List Char) × List (List Char)) :=
  match pySplitWS line with
  | [] => some (reg, [])
  | w :: _ =>
    if w == S "#" then some (reg, [])
    else if w == S "mdefine" then
      match interpret_line line reg with
      | none => none
      | some (_, reg2) => some (reg2, [])
    else some (reg, [failMessage line])

/-- The line loop of convert_mdefine_file (source lines 193-202),
threading the registry; none as soon as a line raises. -/
def runLines : List (List Char) → List (List Char) → Option (List (List Char))
  | reg, [] => some reg
  | reg, l :: ls =>
    match processLine reg l with
    | none => none
    | some (reg2, _) => runLines reg2 ls

/-- How one conversion run ends: whether an exception escaped, and
whether the call out.close() on source line 203 was executed. -/
structure FileRun where
  raisedError : Bool
  outClosed : Bool
deriving DecidableEq, Repr

/-- convert_mdefine_file (source lines 189-203): the output file is
opened, the lines are processed, and out.close() is the final statement
of the function.  There is no try/finally or with-block around the
output file, so when processing a line raises, the exception propagates
out of the function before the close call is reached: the close is
executed exactly when the loop completes normally. -/
def convert_mdefine_file (lines : List (List Char)) : FileRun :=
  match runLines initial_additive lines with
  | some _ => ⟨false, true⟩
  | none => ⟨true, false⟩

/-- Number of opening parentheses, for stating bracket balance. -/
def opens : List Char → Nat
  | [] => 0
  | c :: r => (if c = '(' then 1 else 0) + opens r

/-- Number of closing parentheses. -/
def closes : List Char → Nat
  | [] => 0
  | c :: r => (if c = ')' then 1 else 0) + closes r

/-- Running bracket-balance check: d open parentheses are pending; a
closing parenthesis with nothing pending, or pending parentheses at the
end, make the text unbalanced. -/
def balFrom : List Char → Nat → Bool
  | [], d => d == 0
  | c :: r, d =>
    if c = '(' then balFrom r (d + 1)
    else if c = ')' then (if d == 0 then false else balFrom r (d - 1))
    else balFrom r d

/-- A text has exactly balanced parentheses. -/
def balancedB (l : List Char) : Bool := balFrom l 0

/-! Helper lemmas. -/

lemma opens_append : ∀ (a b : List Char), opens (a ++ b) = opens a + opens b := by
  intro a b
  induction a with
  | nil => simp [opens]
  | cons c r ih => simp [opens, List.cons_append, ih]; omega

lemma closes_append : ∀ (a b : List Char), closes (a ++ b) = closes a + closes b := by
  intro a b
  induction a with
  | nil => simp [closes]
  | cons c r ih => simp [closes, List.cons_append, ih]; omega

lemma take_len_append : ∀ (a b : List Char), (a ++ b).take a.length = a := by
  intro a b
  induction a with
  | nil => simp
  | cons c r ih => simp [List.cons_append, List.length_cons, List.take_succ_cons, ih]

lemma balFrom_iff : ∀ (l : List Char) (d : Nat),
    balFrom l d = true ↔
      (closes l = opens l + d ∧ ∀ k, closes (l.take k) ≤ opens (l.take k) + d) := by
  intro l
  induction l with
  | nil =>
    intro d
    simp [balFrom, closes, opens]
    omega
  | cons c r ih =>
    intro d
    by_cases hc1 : c = '('
    · subst hc1
      rw [show balFrom ('(' :: r) d = balFrom r (d + 1) from by simp [balFrom]]
      rw [ih (d + 1)]
      constructor
      · rintro ⟨h1, h2⟩
        refine ⟨by simp [opens, closes]; omega, ?_⟩
        intro k
        match k with
        | 0 => simp [closes, opens]
        | k + 1 =>
          have h3 := h2 k
          simp [List.take_succ_cons, opens, closes]
          omega
      · rintro ⟨h1, h2⟩
        refine ⟨by simp [opens, closes] at h1; omega, ?_⟩
        intro k
        have h3 := h2 (k + 1)
        simp [List.take_succ_cons, opens, closes] at h3
        omega
    · by_cases hc2 : c = ')'
      · subst hc2
        match d with
        | 0 =>
          rw [show balFrom (')' :: r) 0 = false from by simp [balFrom]]
          simp only [Bool.false_eq_true, false_iff]
          rintro ⟨h1, h2⟩
          have h3 := h2 1
          simp [List.take_succ_cons, opens, closes] at h3
        | d + 1 =>
          rw [show balFrom (')' :: r) (d + 1) = balFrom r d from by simp [balFrom]]
          rw [ih d]
          constructor
          · rintro ⟨h1, h2⟩
            refine ⟨by simp [opens, closes]; omega, ?_⟩
            intro k
            match k with
            | 0 => simp [closes, opens]
            | k + 1 =>
              have h3 := h2 k
              simp [List.take_succ_cons, opens, closes]
              omega
          · rintro ⟨h1, h2⟩
            refine ⟨by simp [opens, closes] at h1; omega, ?_⟩
            intro k
            have h3 := h2 (k + 1)
            simp [List.take_succ_cons, opens, closes] at h3
            omega
      · rw [show balFrom (c :: r) d = balFrom r d from by simp [balFrom, hc1, hc2]]
        rw [ih d]
        constructor
        · rintro ⟨h1, h2⟩
          refine ⟨by simp [opens, closes, hc1, hc2]; omega, ?_⟩
          intro k
          match k with
          | 0 => simp [closes, opens]
          | k + 1 =>
            have h3 := h2 k
            simp [List.take_succ_cons, opens, closes, hc1, hc2]
            omega
        · rintro ⟨h1, h2⟩
          refine ⟨by simp [opens, closes, hc1, hc2] at h1; omega, ?_⟩
          intro k
          have h3 := h2 (k + 1)
          simp [List.take_succ_cons, opens, closes, hc1, hc2] at h3
          omega

lemma bracketScan_sound :
    ∀ (s : List Char) (lvl j : Nat), 1 ≤ lvl → bracketScan s lvl = some j →
      1 ≤ j ∧ j ≤ s.length ∧ closes (s.take j) = opens (s.take j) + lvl ∧
      ∀ m, m < j → closes (s.take m) + 1 ≤ opens (s.take m) + lvl := by
  intro s
  induction s with
  | nil => intro lvl j _ h; simp [bracketScan] at h
  | cons c r ih =>
    intro lvl j hlvl h
    simp only [bracketScan] at h
    by_cases h0 : stepLvl c lvl = 0
    · rw [if_pos h0] at h
      injection h with h1
      subst h1
      have hcl : c = ')' ∧ lvl = 1 := by
        unfold stepLvl at h0
        by_cases hc1 : c = '('
        · rw [if_pos hc1] at h0; omega
        · rw [if_neg hc1] at h0
          by_cases hc2 : c = ')'
          · rw [if_pos hc2] at h0; exact ⟨hc2, by omega⟩
          · rw [if_neg hc2] at h0; omega
      obtain ⟨hc, hl1⟩ := hcl
      subst hc
      subst hl1
      refine ⟨le_refl 1, by simp, ?_, ?_⟩
      · simp [List.take_succ_cons, closes, opens]
      · intro m hm
        have hm0 : m = 0 := by omega
        subst hm0
        simp [closes, opens]
    · rw [if_neg h0] at h
      obtain ⟨j', hj', hjj⟩ : ∃ j', bracketScan r (stepLvl c lvl) = some j' ∧ j' + 1 = j := by
        cases hbr : bracketScan r (stepLvl c lvl) with
        | none => rw [hbr] at h; simp at h
        | some j0 =>
          rw [hbr] at h
          simp at h
          exact ⟨j0, rfl, h⟩
      subst hjj
      have hlvl' : 1 ≤ stepLvl c lvl := Nat.one_le_iff_ne_zero.mpr h0
      obtain ⟨ihj1, ihj2, ihj3, ihj4⟩ := ih (stepLvl c lvl) j' hlvl' hj'
      refine ⟨by omega, by simp [List.length_cons]; omega, ?_, ?_⟩
      · rw [List.take_succ_cons]
        by_cases hc1 : c = '('
        · subst hc1
          have hst : stepLvl '(' lvl = lvl + 1 := by simp [stepLvl]
          rw [hst] at ihj3
          simp [closes, opens]
          omega
        · by_cases hc2 : c = ')'
          · subst hc2
            have hst : stepLvl ')' lvl = lvl - 1 := by simp [stepLvl]
            rw [hst] at ihj3 hlvl'
            simp [closes, opens]
            omega
          · have hst : stepLvl c lvl = lvl := by simp [stepLvl, hc1, hc2]
            rw [hst] at ihj3
            simp [closes, opens, hc1, hc2]
            omega
      · intro m hm
        match m with
        | 0 => simp [closes, opens]; omega
        | m + 1 =>
          have h4 := ihj4 m (by omega)
          rw [List.take_succ_cons]
          by_cases hc1 : c = '('
          · subst hc1
            have hst : stepLvl '(' lvl = lvl + 1 := by simp [stepLvl]
            rw [hst] at h4
            simp [closes, opens]
            omega
          · by_cases hc2 : c = ')'
            · subst hc2
              have hst : stepLvl ')' lvl = lvl - 1 := by simp [stepLvl]
              rw [hst] at h4 hlvl'
              simp [closes, opens]
              omega
            · have hst : stepLvl c lvl = lvl := by simp [stepLvl, hc1, hc2]
              rw [hst] at h4
              simp [closes, opens, hc1, hc2]
              omega

lemma bracketScan_complete :
    ∀ (s : List Char) (lvl : Nat), 1 ≤ lvl →
      (∃ k, k ≤ s.length ∧ closes (s.take k) = opens (s.take k) + lvl) →
      ∃ j, bracketScan s lvl = some j := by
  intro s
  induction s with
  | nil =>
    rintro lvl hlvl ⟨k, hk, he⟩
    simp at hk
    subst hk
    simp [closes, opens] at he
    omega
  | cons c r ih =>
    rintro lvl hlvl ⟨k, hk, he⟩
    by_cases h0 : stepLvl c lvl = 0
    · exact ⟨1, by simp only [bracketScan]; rw [if_pos h0]⟩
    · have hlvl' : 1 ≤ stepLvl c lvl := Nat.one_le_iff_ne_zero.mpr h0
      match k, hk, he with
      | 0, hk, he =>
        simp [closes, opens] at he
        omega
      | k + 1, hk, he =>
        rw [List.take_succ_cons] at he
        have hex : closes (r.take k) = opens (r.take k) + stepLvl c lvl := by
          by_cases hc1 : c = '('
          · subst hc1
            have hst : stepLvl '(' lvl = lvl + 1 := by simp [stepLvl]
            rw [hst]
            simp [closes, opens] at he
            omega
          · by_cases hc2 : c = ')'
            · subst hc2
              have hst : stepLvl ')' lvl = lvl - 1 := by simp [stepLvl]
              rw [hst]
              simp [closes, opens] at he
              omega
            · have hst : stepLvl c lvl = lvl := by simp [stepLvl, hc1, hc2]
              rw [hst]
              simp [closes, opens, hc1, hc2] at he
              omega
        obtain ⟨j, hj⟩ := ih (stepLvl c lvl) hlvl' ⟨k, by simp at hk; omega, hex⟩
        refine ⟨j + 1, ?_⟩
        simp only [bracketScan]
        rw [if_neg h0, hj]
        rfl

lemma exists_close_index :
    ∀ (s : List Char) (lvl : Nat), 1 ≤ lvl → opens s + lvl ≤ closes s →
      ∃ k, k ≤ s.length ∧ closes (s.take k) = opens (s.take k) + lvl := by
  intro s
  induction s with
  | nil =>
    intro lvl h1 h2
    simp [opens, closes] at h2
    omega
  | cons c r ih =>
    intro lvl h1 h2
    by_cases hc2 : c = ')'
    · subst hc2
      by_cases hl : lvl = 1
      · subst hl
        refine ⟨1, by simp, ?_⟩
        simp [List.take_succ_cons, closes, opens]
      · have h2' : opens r + (lvl - 1) ≤ closes r := by
          simp [opens, closes] at h2
          omega
        obtain ⟨k, hk, he⟩ := ih (lvl - 1) (by omega) h2'
        refine ⟨k + 1, by simp; omega, ?_⟩
        rw [List.take_succ_cons]
        simp [closes, opens]
        omega
    · by_cases hc1 : c = '('
      · subst hc1
        have h2' : opens r + (lvl + 1) ≤ closes r := by
          simp [opens, closes] at h2
          omega
        obtain ⟨k, hk, he⟩ := ih (lvl + 1) (by omega) h2'
        refine ⟨k + 1, by simp; omega, ?_⟩
        rw [List.take_succ_cons]
        simp [closes, opens]
        omega
      · have h2' : opens r + lvl ≤ closes r := by
          simp [opens, closes, hc1, hc2] at h2
          omega
        obtain ⟨k, hk, he⟩ := ih lvl h1 h2'
        refine ⟨k + 1, by simp; omega, ?_⟩
        rw [List.take_succ_cons]
        simp [closes, opens, hc1, hc2]
        omega

lemma uniqueAux_props : ∀ (l seen : List (List Char)),
    (uniqueAux seen l).Sublist l ∧ (uniqueAux seen l).Nodup ∧
      ∀ a, a ∈ uniqueAux seen l ↔ a ∈ l ∧ a ∉ seen := by
  intro l
  induction l with
  | nil => intro seen; simp [uniqueAux]
  | cons x rest ih =>
    intro seen
    by_cases hx : x ∈ seen
    · rw [show uniqueAux seen (x :: rest) = uniqueAux seen rest from by
        simp [uniqueAux, hx]]
      obtain ⟨hs, hn, hm⟩ := ih seen
      refine ⟨hs.trans (List.sublist_cons_self x rest), hn, ?_⟩
      intro a
      rw [hm a, List.mem_cons]
      constructor
      · rintro ⟨ha, hna⟩
        exact ⟨Or.inr ha, hna⟩
      · rintro ⟨hor, hna⟩
        rcases hor with hax | ha
        · subst hax; exact absurd hx hna
        · exact ⟨ha, hna⟩
    · rw [show uniqueAux seen (x :: rest) = x :: uniqueAux (seen ++ [x]) rest from by
        simp [uniqueAux, hx]]
      obtain ⟨hs, hn, hm⟩ := ih (seen ++ [x])
      refine ⟨List.Sublist.cons₂ x hs, ?_, ?_⟩
      · rw [List.nodup_cons]
        refine ⟨?_, hn⟩
        intro hmem
        have hmm := (hm x).mp hmem
        simp at hmm
      · intro a
        rw [List.mem_cons, hm a, List.mem_cons]
        simp only [List.mem_append, List.mem_singleton]
        by_cases hax : a = x
        · subst hax; simp [hx]
        · simp [hax]

lemma uniqueInOrder_props : ∀ l : List (List Char),
    (uniqueInOrder l).Sublist l ∧ (uniqueInOrder l).Nodup ∧
      ∀ a, a ∈ uniqueInOrder l ↔ a ∈ l := by
  intro l
  obtain ⟨hs, hn, hm⟩ := uniqueAux_props l []
  refine ⟨hs, hn, ?_⟩
  intro a
  rw [show uniqueInOrder l = uniqueAux [] l from rfl, hm a]
  simp

lemma interpretCore_nonadd (name expr t : List Char) (reg : List (List Char))
    (ht : ¬ t = S "add") :
    interpretCore name expr t reg = interpretNonAdd name expr reg := by
  have hb : (t == S "add") = false := by
    rw [beq_eq_false_iff_ne]
    exact ht
  unfold interpretCore interpretNonAdd
  simp only [hb, Bool.false_eq_true, if_false]

/-! Claim theorems. -/

/-- C1: For the input line mdefine mypow e*a (read from the file, hence
newline-terminated; no explicit type, so the type defaults to additive),
interpret_line emits a function whose return expression is, up to
whitespace, ( (6.19920995*(lo+hi)/lo/hi)*a )*norm, and whose emitted
parameter list is exactly norm, a in that order. -/
theorem C1_end_to_end_mypow :
    interpret_line (S "mdefine mypow e*a\n") initial_additive
      = some (⟨S "mypow", [S "norm", S "a"],
              S "( (6.19920995*(lo+hi)/lo/hi)*a\n )*norm"⟩,
              initial_additive ++ [S "mypow"]) ∧
    stripWS (S "( (6.19920995*(lo+hi)/lo/hi)*a\n )*norm")
      = stripWS (S "( (6.19920995*(lo+hi)/lo/hi)*a )*norm") := by
  exact ⟨by decide, by decide⟩

/-- C2: the claim that every member of the special math-function set,
including max, is never rewritten by the subfunction wrapper fails on the
code: the special_functions list contains the entry " max" with a leading
space instead of "max", so a call of max is wrapped into the
indirect-evaluation form.  This theorem evaluates the code at the failing
input mdefine f max(a,b): the emitted return expression contains
eval_fun2(&max,lo,hi, [[a,b]]). -/
theorem C2_max_call_is_wrapped :
    (S "max") ∉ special_functionsL ∧ (S " max") ∈ special_functionsL ∧
    interpret_line (S "mdefine f max(a,b)\n") initial_additive
      = some (⟨S "f", [S "norm", S "a", S "b"],
              S "( eval_fun2(&max,lo,hi, [[a,b]])\n )*norm"⟩,
              initial_additive ++ [S "f"]) := by
  exact ⟨by decide, by decide, by decide⟩

/-- C3 counterexample: the multi-arg rewriting pass is not idempotent;
on the expression min(a,b) the first run yields min([a,b]), and a second
run on that output changes it again, to min([[a,b]]). -/
theorem C3_counterexample :
    multiArgPass (S "min(a,b)") = some (S "min([a,b])") ∧
    multiArgPass (S "min([a,b])") = some (S "min([[a,b]])") ∧
    ¬ multiArgPass (S "min([a,b])") = some (S "min([a,b])") := by
  exact ⟨by decide, by decide, by decide⟩

/-- C3 amended: the multi-arg rewriting pass is not idempotent; re-running
it on its own output wraps the argument text of each already-wrapped
min or max call in one further array layer, because the scanner matches
the bare name again and the bracket scan stops at the first closing
parenthesis, which now delimits the inserted array. -/
theorem C3_second_run_adds_array_layer :
    multiArgPass (S "min(a,b)") = some (S "min([a,b])") ∧
    multiArgPass (S "min([a,b])") = some (S "min([[a,b]])") := by
  exact ⟨by decide, by decide⟩

/-- C4: the claim that smin and smax used as calls are renamed to min and
max after the operator-normalization and multi-arg stages is right about
the intent but wrong about the code: source lines 95-96 call re.sub and
discard its result, so nothing is renamed.  Evaluating the code at the
failing input mdefine f smin(a,b): the emitted return expression still
contains smin(a,b) verbatim. -/
theorem C4_smin_not_renamed :
    multiArgPass (S "smin(a,b)\n") = some (S "smin(a,b)\n") ∧
    interpret_line (S "mdefine f smin(a,b)\n") initial_additive
      = some (⟨S "f", [S "norm", S "a", S "b"], S "( smin(a,b)\n )*norm"⟩,
              initial_additive ++ [S "f"]) := by
  exact ⟨by decide, by decide⟩

/-- C5: a line defining an additive model foo registers foo, and a later
line whose expression calls foo(par_a) is wrapped with the normalization
argument 1 placed first in the argument array, before the original
arguments. -/
theorem C5_additive_registry_norm_arg :
    (∃ r1, interpret_line (S "mdefine foo b\n") initial_additive
        = some (r1, initial_additive ++ [S "foo"])) ∧
    interpret_line (S "mdefine bar foo(par_a)\n") (initial_additive ++ [S "foo"])
      = some (⟨S "bar", [S "norm", S "par_a"],
              S "( eval_fun2(&foo,lo,hi, [1, par_a])\n )*norm"⟩,
              initial_additive ++ [S "foo", S "bar"]) := by
  exact ⟨⟨⟨S "foo", [S "norm", S "b"], S "( b\n )*norm"⟩, by decide⟩, by decide⟩

/-- C6 counterexample: on the input expression a*par1 + par2*par1 (as the
pipeline sees it for a newline-terminated line) the extracted parameter
sequence is a, par1, par2, not par1, par2 as claimed: the token a is a
parameter too and appears first. -/
theorem C6_counterexample :
    extractPars (S "a*par1 + par2*par1\n") = [S "a", S "par1", S "par2"] ∧
    ¬ extractPars (S "a*par1 + par2*par1\n") = [S "par1", S "par2"] := by
  exact ⟨by decide, by decide⟩

/-- C6 amended: parameter extraction is duplicate-free and order
preserving (the deduplication keeps the first occurrence of each token
and returns a sublist of the token sequence, with no token lost), and on
the input expression a*par1 + par2*par1 the extracted parameter sequence
is exactly a, par1, par2, with norm prepended when the model is
additive. -/
theorem C6_param_extraction :
    (∀ l : List (List Char),
      (uniqueInOrder l).Nodup ∧ (uniqueInOrder l).Sublist l ∧
        ∀ a, a ∈ uniqueInOrder l ↔ a ∈ l) ∧
    extractPars (S "a*par1 + par2*par1\n") = [S "a", S "par1", S "par2"] ∧
    (interpret_line (S "mdefine f a*par1 + par2*par1\n") initial_additive).map
        (fun r => r.1.pars)
      = some [S "norm", S "a", S "par1", S "par2"] := by
  refine ⟨?_, by decide, by decide⟩
  intro l
  obtain ⟨hs, hn, hm⟩ := uniqueInOrder_props l
  exact ⟨hn, hs, hm⟩

/-- C7 counterexample: an occurrence of the identifier that is not
followed by an opening parenthesis is not left untouched: the scanner of
the rewriting passes matches any standalone-word occurrence, so on
min+f(x) the bare min is treated as a call site and the pass rewrites
the text to min([x]), and on a*min (no parenthesis anywhere after it)
the pass raises instead of leaving the text alone. -/
theorem C7_counterexample :
    multiArgPass (S "min+f(x)") = some (S "min([x])") ∧
    ¬ (S "min([x])") = (S "min+f(x)") ∧
    multiArgPass (S "a*min") = none := by
  exact ⟨by decide, by decide, by decide⟩

/-- C7 amended: the call-site scanner enforces word boundaries on both
ends of the identifier (min is not found inside smin, and an expression
whose only min is inside smin passes through unchanged), but it does not
require a following parenthesis: a standalone occurrence of the
identifier not used as a call is still matched and consumed by the
rewriting passes, which then grab the next opening parenthesis anywhere
to its right, or fail when there is none. -/
theorem C7_scanner_word_match :
    findWord (S "min") (S "smin(a,b)") = none ∧
    multiArgPass (S "smin(a,b)") = some (S "smin(a,b)") ∧
    findWord (S "min") (S "min+f(x)") = some 0 ∧
    multiArgPass (S "min+f(x)") = some (S "min([x])") ∧
    multiArgPass (S "a*min") = none := by
  exact ⟨by decide, by decide, by decide, by decide, by decide⟩

/-- C8: for every expression with balanced parentheses, the bracket scan
started just past an opening parenthesis at depth 1 terminates without
reading past the end of the string, and returns a count j such that the
substring from that opening parenthesis through the j consumed
characters has exactly balanced parentheses and no shorter nonempty
prefix of it is balanced. -/
theorem C8_bracket_matcher (A s : List Char)
    (hbal : balancedB (A ++ '(' :: s) = true) :
    ∃ j, bracketScan s 1 = some j ∧ j ≤ s.length ∧
      balancedB ('(' :: s.take j) = true ∧
      ∀ k, 0 < k → k ≤ j → balancedB (('(' :: s.take j).take k) = false := by
  unfold balancedB at hbal
  obtain ⟨h1, h2⟩ := (balFrom_iff (A ++ '(' :: s) 0).mp hbal
  have hA := h2 A.length
  rw [take_len_append] at hA
  rw [opens_append, closes_append] at h1
  have hco : opens ('(' :: s) = 1 + opens s := by simp [opens]
  have hcc : closes ('(' :: s) = closes s := by simp [closes]
  rw [hco, hcc] at h1
  have hge : opens s + 1 ≤ closes s := by omega
  obtain ⟨k, hk, he⟩ := exists_close_index s 1 (by omega) hge
  obtain ⟨j, hj⟩ := bracketScan_complete s 1 (by omega) ⟨k, hk, he⟩
  obtain ⟨hj1, hj2, hj3, hj4⟩ := bracketScan_sound s 1 j (by omega) hj
  refine ⟨j, hj, hj2, ?_, ?_⟩
  · unfold balancedB
    apply (balFrom_iff _ 0).mpr
    constructor
    · simp [closes, opens]
      omega
    · intro m
      match m with
      | 0 => simp [closes, opens]
      | m + 1 =>
        rw [List.take_succ_cons]
        simp only [closes, opens]
        rw [List.take_take]
        by_cases hmj : m < j
        · have h5 := hj4 m hmj
          have hmin : min m j = m := by omega
          rw [hmin]
          simp
          omega
        · have hmin : min m j = j := by omega
          rw [hmin]
          simp
          omega
  · intro k hk0 hkj
    match k, hk0 with
    | k + 1, _ =>
      rw [List.take_succ_cons]
      unfold balancedB
      cases hbb : balFrom ('(' :: (s.take j).take k) 0 with
      | false => rfl
      | true =>
        exfalso
        obtain ⟨hc1, _⟩ := (balFrom_iff _ 0).mp hbb
        rw [List.take_take] at hc1
        have hmin : min k j = k := by omega
        rw [hmin] at hc1
        simp [closes, opens] at hc1
        have h6 := hj4 k (by omega)
        omega

/-- C8 witness: the theorem applied at the balanced expression (a) with
empty prefix A. -/
theorem C8_bracket_matcher_witness :
    balancedB (([] : List Char) ++ '(' :: S "a)") = true ∧
    (∃ j, bracketScan (S "a)") 1 = some j ∧ j ≤ (S "a)").length ∧
      balancedB ('(' :: (S "a)").take j) = true ∧
      ∀ k, 0 < k → k ≤ j → balancedB (('(' :: (S "a)").take j).take k) = false) :=
  ⟨by decide, C8_bracket_matcher [] (S "a)") (by decide)⟩

/-- C9 counterexample: processing the single record mdefine f min raises
inside interpret_line (the bare min has no following parenthesis), the
exception propagates out of convert_mdefine_file, and the close call on
the output file is not executed: the file is not closed on this exit
path, contrary to the claim. -/
theorem C9_counterexample :
    convert_mdefine_file [S "mdefine f min\n"] = ⟨true, false⟩ := by
  decide

/-- C9 amended: the output file is closed exactly on the runs in which no
record raises; when processing a record raises, the exception propagates
out of convert_mdefine_file before the close call (there is no
try/finally or with-block around the output file) and the file is left
unclosed. -/
theorem C9_close_on_success_only :
    ∀ lines, (convert_mdefine_file lines).outClosed = true ↔
      (convert_mdefine_file lines).raisedError = false := by
  intro lines
  unfold convert_mdefine_file
  cases runLines initial_additive lines <;> simp

/-- C10: every model type tag other than exactly add - mul, con, or any
unrecognized value - is treated uniformly as non-additive: the run of
interpret_line equals the pipeline with every additive branch resolved
to its false side (interpretNonAdd), which returns the registry
unchanged, does not prepend norm to the parameters and does not multiply
the expression by norm; and the mdefine branch of the line dispatch
never produces a diagnostic, whatever the type tag. -/
theorem C10_nonadditive_uniform :
    (∀ line reg, mtypeOf line ≠ S "add" →
      interpret_line line reg =
        match (splitOnChar ' ' line)[1]? with
        | none => none
        | some n => interpretNonAdd n (funcExprOf line) reg) ∧
    (∀ name expr t reg, t ≠ S "add" →
      interpretCore name expr t reg = interpretNonAdd name expr reg) ∧
    (∀ reg line out, (pySplitWS line).head? = some (S "mdefine") →
      processLine reg line = some out → out.2 = []) := by
  refine ⟨?_, fun name expr t reg ht => interpretCore_nonadd name expr t reg ht, ?_⟩
  · intro line reg ht
    unfold interpret_line
    cases (splitOnChar ' ' line)[1]? with
    | none => rfl
    | some n => exact interpretCore_nonadd _ _ _ _ ht
  · intro reg line out hhead hproc
    unfold processLine at hproc
    cases hsp : pySplitWS line with
    | nil => rw [hsp] at hhead; simp at hhead
    | cons w ws =>
      rw [hsp] at hhead hproc
      simp at hhead
      subst hhead
      simp only [show (S "mdefine" == S "#") = false from by decide,
        show (S "mdefine" == S "mdefine") = true from by decide,
        Bool.false_eq_true, if_false, if_true] at hproc
      cases hint : interpret_line line reg with
      | none => rw [hint] at hproc; simp at hproc
      | some pr =>
        rw [hint] at hproc
        cases pr with
        | mk r reg2 =>
          simp only [Option.some.injEq] at hproc
          subst hproc
          rfl

/-- C10 witness: the theorem applied at the concrete tag con and at a
concrete mdefine line. -/
theorem C10_nonadditive_uniform_witness :
    (interpret_line (S "mdefine f b : con\n") initial_additive =
      match (splitOnChar ' ' (S "mdefine f b : con\n"))[1]? with
      | none => none
      | some n => interpretNonAdd n (funcExprOf (S "mdefine f b : con\n")) initial_additive) ∧
    interpretCore (S "f") (S "b ") (S "con") initial_additive
      = interpretNonAdd (S "f") (S "b ") initial_additive ∧
    ((initial_additive ++ [S "f"], ([] : List (List Char)))).2 = ([] : List (List Char)) :=
  ⟨C10_nonadditive_uniform.1 (S "mdefine f b : con\n") initial_additive (by decide),
   C10_nonadditive_uniform.2.1 (S "f") (S "b ") (S "con") initial_additive (by decide),
   C10_nonadditive_uniform.2.2 initial_additive (S "mdefine f b\n")
     (initial_additive ++ [S "f"], []) (by decide) (by decide)⟩
